import Mathlib

/-!
Verification of the H.264 ingestion / framing engine (`server-h264`).

The Rust source is shallowly embedded: byte buffers are `List Nat`
(each element a byte value), machine integers are `Nat`, the external
OpenH264 decoder is an oracle parameter `DecodeFn`, and fallible code
returns `Except`.  The per-pixel BT.601 floating-point arithmetic of the
color converter is abstracted as an oracle parameter `RgbFn`, since no
claim below depends on the numeric pixel values (floating point is not
faithfully representable); everything proved about the converter holds
for every such function.
-/

namespace H264

abbrev Byte := Nat

/-- Result of one call to the external decoder: a decode error, or
optionally one decoded picture.  Frame contents are irrelevant to the
framing layer, so the picture is abstracted to `Unit`. -/
abbrev DecodeFn := List Byte → Except Unit (Option Unit)

/-! ### Start-Code Scanner (`find_start_code`, net.rs 270-285) -/

/-- Body of one iteration of the scan loop of `find_start_code`:
`buf[i]==0 && buf[i+1]==0 && (buf[i+2]==1 || (i+3 < buf.len() && buf[i+2]==0 && buf[i+3]==1))`.
Out-of-range reads cannot occur in the source (the loop bound keeps
`i + 2 < buf.len()`); the embedding uses defaulted lookups `getD`. -/
def hit (buf : List Byte) (i : Nat) : Bool :=
  buf.getD i 0 == 0 && buf.getD (i+1) 0 == 0 &&
    (buf.getD (i+2) 0 == 1 ||
      (decide (i + 3 < buf.length) && buf.getD (i+2) 0 == 0 && buf.getD (i+3) 0 == 1))

/-- The scan loop `for i in offset..buf.len()-2`, with `fuel` the number
of remaining iterations. -/
def scanAux (buf : List Byte) : Nat → Nat → Option Nat
  | _, 0 => none
  | i, fuel+1 => if hit buf i then some i else scanAux buf (i+1) fuel

/-- Function `find_start_code` (net.rs 270-285): locate the next Annex-B start
code `00 00 01` or `00 00 00 01` at or after `offset`. -/
def find_start_code (buf : List Byte) (offset : Nat) : Option Nat :=
  if buf.length < offset + 3 then none
  else scanAux buf offset (buf.length - 2 - offset)

/-- A start code (3-byte or 4-byte variant) occurs at index `i`,
entirely inside the buffer. -/
def startCodeAt (buf : List Byte) (i : Nat) : Prop :=
  (i + 3 ≤ buf.length ∧ buf.getD i 0 = 0 ∧ buf.getD (i+1) 0 = 0 ∧ buf.getD (i+2) 0 = 1)
  ∨ (i + 4 ≤ buf.length ∧ buf.getD i 0 = 0 ∧ buf.getD (i+1) 0 = 0 ∧
      buf.getD (i+2) 0 = 0 ∧ buf.getD (i+3) 0 = 1)

instance (buf : List Byte) (i : Nat) : Decidable (startCodeAt buf i) := by
  unfold startCodeAt; infer_instance

theorem getD_ne_default_lt (l : List Byte) (n : Nat) (h : l.getD n 0 ≠ 0) :
    n < l.length := by
  by_contra hn
  exact h (List.getD_eq_default l 0 (Nat.le_of_not_lt hn))

theorem hit_iff_startCodeAt (buf : List Byte) (i : Nat) :
    hit buf i = true ↔ startCodeAt buf i := by
  constructor
  · intro h
    unfold hit at h
    simp only [Bool.and_eq_true, Bool.or_eq_true, beq_iff_eq, decide_eq_true_eq] at h
    obtain ⟨⟨h0, h1⟩, h2⟩ := h
    rcases h2 with h2 | ⟨⟨hlt, h2⟩, h3⟩
    · have hb : i + 2 < buf.length := getD_ne_default_lt buf (i+2) (by rw [h2]; exact Nat.one_ne_zero)
      exact Or.inl ⟨by omega, h0, h1, h2⟩
    · exact Or.inr ⟨by omega, h0, h1, h2, h3⟩
  · intro h
    unfold hit
    simp only [Bool.and_eq_true, Bool.or_eq_true, beq_iff_eq, decide_eq_true_eq]
    rcases h with ⟨_, h0, h1, h2⟩ | ⟨hb, h0, h1, h2, h3⟩
    · exact ⟨⟨h0, h1⟩, Or.inl h2⟩
    · exact ⟨⟨h0, h1⟩, Or.inr ⟨⟨by omega, h2⟩, h3⟩⟩

/-- Predicate `startCodeAt` forces the whole pattern to be in the buffer. -/
theorem startCodeAt_bounds (buf : List Byte) (i : Nat) (h : startCodeAt buf i) :
    i + 3 ≤ buf.length := by
  rcases h with ⟨h, _⟩ | ⟨h, _⟩ <;> omega

theorem scanAux_sound (buf : List Byte) :
    ∀ fuel i j, scanAux buf i fuel = some j →
      i ≤ j ∧ j < i + fuel ∧ hit buf j = true ∧
        ∀ k, i ≤ k → k < j → hit buf k = false := by
  intro fuel
  induction fuel with
  | zero => intro i j h; simp [scanAux] at h
  | succ n ih =>
    intro i j h
    unfold scanAux at h
    by_cases hh : hit buf i = true
    · rw [if_pos hh] at h
      injection h with h
      subst h
      exact ⟨Nat.le_refl _, by omega, hh, fun k hk1 hk2 => by omega⟩
    · rw [if_neg hh] at h
      obtain ⟨ha, hb, hc, hd⟩ := ih (i+1) j h
      refine ⟨by omega, by omega, hc, fun k hk1 hk2 => ?_⟩
      rcases Nat.eq_or_lt_of_le hk1 with rfl | hk1'
      · exact Bool.eq_false_iff.mpr hh
      · exact hd k hk1' hk2

theorem scanAux_none (buf : List Byte) :
    ∀ fuel i, scanAux buf i fuel = none →
      ∀ k, i ≤ k → k < i + fuel → hit buf k = false := by
  intro fuel
  induction fuel with
  | zero => intro i _ k hk1 hk2; omega
  | succ n ih =>
    intro i h k hk1 hk2
    unfold scanAux at h
    by_cases hh : hit buf i = true
    · rw [if_pos hh] at h; exact absurd h (by simp)
    · rw [if_neg hh] at h
      rcases Nat.eq_or_lt_of_le hk1 with rfl | hk1'
      · exact Bool.eq_false_iff.mpr hh
      · exact ih (i+1) h k hk1' (by omega)

/-- Soundness of `find_start_code`: a returned index is at or after the
offset, carries a start code, and is leftmost among such indices. -/
theorem find_start_code_some (buf : List Byte) (off i : Nat)
    (h : find_start_code buf off = some i) :
    off ≤ i ∧ startCodeAt buf i ∧ ∀ j, off ≤ j → j < i → ¬ startCodeAt buf j := by
  unfold find_start_code at h
  by_cases hg : buf.length < off + 3
  · rw [if_pos hg] at h; exact absurd h (by simp)
  · rw [if_neg hg] at h
    obtain ⟨ha, _, hc, hd⟩ := scanAux_sound buf (buf.length - 2 - off) off i h
    refine ⟨ha, (hit_iff_startCodeAt buf i).mp hc, fun j hj1 hj2 hj3 => ?_⟩
    have : hit buf j = false := hd j hj1 hj2
    rw [(hit_iff_startCodeAt buf j).mpr hj3] at this
    exact absurd this (by simp)

/-- Completeness of `find_start_code`: when `none` is returned, no start
code occurs at or after the offset. -/
theorem find_start_code_none (buf : List Byte) (off : Nat)
    (h : find_start_code buf off = none) :
    ∀ j, off ≤ j → ¬ startCodeAt buf j := by
  intro j hj hsc
  have hb := startCodeAt_bounds buf j hsc
  unfold find_start_code at h
  by_cases hg : buf.length < off + 3
  · omega
  · rw [if_neg hg] at h
    have hhit := scanAux_none buf (buf.length - 2 - off) off h j hj (by omega)
    rw [(hit_iff_startCodeAt buf j).mpr hsc] at hhit
    exact absurd hhit (by simp)

/-- A start code right at the front is always found at index 0. -/
theorem find_start_code_zero (buf : List Byte) (h : startCodeAt buf 0) :
    find_start_code buf 0 = some 0 := by
  cases hf : find_start_code buf 0 with
  | none => exact absurd h (find_start_code_none buf 0 hf 0 (Nat.zero_le _))
  | some i =>
    obtain ⟨_, _, hleft⟩ := find_start_code_some buf 0 i hf
    rcases Nat.eq_zero_or_pos i with rfl | hi
    · rfl
    · exact absurd h (hleft 0 (Nat.zero_le _) hi)

/-! ### NAL Normalizer (`decode_nal_buffer`, net.rs 142-185) -/

/-- The start-code test of `decode_nal_buffer` (net.rs 148-151):
`nal_buf.len() >= 4 && nal_buf[0] == 0 && nal_buf[1] == 0 &&
 (nal_buf[2] == 1 || (nal_buf[2] == 0 && nal_buf[3] == 1))`. -/
def has_start_code (nal_buf : List Byte) : Bool :=
  decide (4 ≤ nal_buf.length) && nal_buf.getD 0 0 == 0 && nal_buf.getD 1 0 == 0 &&
    (nal_buf.getD 2 0 == 1 || (nal_buf.getD 2 0 == 0 && nal_buf.getD 3 0 == 1))

/-- The `packet` value built by `decode_nal_buffer` (net.rs 153-169),
including the debug-logging reads of the NAL-type byte (net.rs 154-158
and 162); `none` models a Rust panic.  With a start code present the
source reads `nal_buf[3]` (3-byte code; in bounds because
`has_start_code` forces `len >= 4`) or `nal_buf[4]` (4-byte code; out
of bounds when the payload is exactly `00 00 00 01`) and then passes
the buffer through unchanged; without one it reads `nal_buf[0]` (out of
bounds on an empty payload) and then prepends the canonical 4-byte
start code. -/
def normalize_packet (nal_buf : List Byte) : Option (List Byte) :=
  if has_start_code nal_buf then
    if nal_buf.getD 2 0 = 1 then
      some nal_buf
    else
      if 5 ≤ nal_buf.length then some nal_buf else none
  else
    if nal_buf.length = 0 then none
    else some ([0, 0, 0, 1] ++ nal_buf)

/-- Function `decode_nal_buffer` (net.rs 142-185): build the packet —
`none` when one of the logging index reads panics — then call the
decoder and absorb a decode error (log-and-continue); the produced
frame is offered to the dispatch queue, which never fails.  Whenever it
returns, it returns `Ok`, paired here with the list of packets handed
to the decoder. -/
def decode_nal_buffer (d : DecodeFn) (nal_buf : List Byte) :
    Option (Except Unit Unit × List (List Byte)) :=
  match normalize_packet nal_buf with
  | none => none
  | some packet =>
    match d packet with
    | .ok _ => some (.ok (), [packet])
    | .error _ => some (.ok (), [packet])

/-- Modelled from the spec's words for C3 only (refinement comparison):
"begins with a recognized Annex-B start code (the 3-byte 00 00 01 or the
4-byte 00 00 00 01)". -/
def specBeginsWithStartCode (p : List Byte) : Prop :=
  p.take 3 = [0, 0, 1] ∨ p.take 4 = [0, 0, 0, 1]

instance (p : List Byte) : Decidable (specBeginsWithStartCode p) := by
  unfold specBeginsWithStartCode; infer_instance

/-! ### Control Channel Handler (`handle_control_message`, net.rs 115-139) -/

/-- Function `handle_control_message`: the shared rotation cell is a `Nat`
threaded explicitly; the function returns its new value.  Tag `0x01`
with at least 2 following bytes swaps in the big-endian 16-bit angle
`u16::from_be_bytes([data[1], data[2]])`; every other shape only logs a
warning and leaves the state alone. -/
def handle_control_message (data : List Byte) (rot : Nat) : Nat :=
  match data with
  | [] => rot
  | msg_type :: _ =>
    if msg_type = 0x01 then
      if 3 ≤ data.length then data.getD 1 0 * 256 + data.getD 2 0
      else rot
    else rot

/-! ### Length-Prefixed Session Reader (`read_one_payload`, net.rs 89-112) -/

/-- Constant `MAX_NAL_SIZE` (net.rs 17). -/
def MAX_NAL_SIZE : Nat := 16 * 1024 * 1024

/-- Constant `CTRL_MAGIC` (net.rs 18): the ASCII bytes of `CTRL`. -/
def ctrlMagic : List Byte := [0x43, 0x54, 0x52, 0x4C]

/-- Function `read_one_payload` (net.rs 89-112).  The socket is the byte list
`stream`; the result carries the unread remainder of the stream, the
rotation state after the call, and the list of packets handed to the
decoder (empty when no decode happened).  A short stream models a failed
`read_exact`, which the source propagates with `?`; the outer `none`
models a panic escaping from `decode_nal_buffer`. -/
def read_one_payload (d : DecodeFn) (payload_len : Nat) (stream : List Byte)
    (rot : Nat) : Option (Except Unit (List Byte × Nat × List (List Byte))) :=
  if payload_len = 0 ∨ MAX_NAL_SIZE < payload_len then
    some (.ok (stream, rot, []))
  else if stream.length < payload_len then
    some (.error ())
  else
    let buf := stream.take payload_len
    let rest := stream.drop payload_len
    if 4 ≤ buf.length ∧ buf.take 4 = ctrlMagic then
      some (.ok (rest, handle_control_message (buf.drop 4) rot, []))
    else
      match decode_nal_buffer d buf with
      | none => none
      | some (.ok _, pkts) => some (.ok (rest, rot, pkts))
      | some (.error e, _) => some (.error e)

/-! ### Annex-B extraction (`extract_and_decode_nals`, net.rs 234-267) -/

/-- The carving loop of `extract_and_decode_nals` (net.rs 239-258),
with a fuel parameter for structural recursion.  Each iteration that
extracts a NAL drains at least 3 bytes (`carve_loop_terminates` below),
so `buf.length` fuel always suffices (`carveAux_fuel_irrelevant`).
Returns the packets handed to the decoder, in stream order, and the
buffer left over; a decode error is propagated immediately (the
source's `?` on `decoder.decode`). -/
def carveAux (d : DecodeFn) : Nat → List Byte → Except Unit (List (List Byte) × List Byte)
  | 0, buf => .ok ([], buf)
  | fuel+1, buf =>
    match find_start_code buf 0 with
    | none => .ok ([], buf)
    | some s =>
      match find_start_code buf (s + 3) with
      | none => .ok ([], buf)
      | some e =>
        let nal := (buf.take e).drop s
        match d nal with
        | .error err => .error err
        | .ok _ =>
          match carveAux d fuel (buf.drop e) with
          | .error err => .error err
          | .ok (rest, final) => .ok (nal :: rest, final)

/-- The carving loop started with enough fuel. -/
def carve (d : DecodeFn) (buf : List Byte) : Except Unit (List (List Byte) × List Byte) :=
  carveAux d buf.length buf

/-- Function `extract_and_decode_nals` (net.rs 234-267): run the carving loop,
then apply the growth bound — a buffer above 4 MiB is drained down to
its trailing 1 MiB. -/
def extract_and_decode_nals (d : DecodeFn) (buf : List Byte) :
    Except Unit (List (List Byte) × List Byte) :=
  match carve d buf with
  | .error err => .error err
  | .ok (nals, buf1) =>
    if 4 * 1024 * 1024 < buf1.length then
      .ok (nals, buf1.drop (buf1.length - 1024 * 1024))
    else
      .ok (nals, buf1)

/-- A found start code lies at least at the offset and fits in the
buffer. -/
theorem find_some_bounds (buf : List Byte) (off i : Nat)
    (h : find_start_code buf off = some i) :
    off ≤ i ∧ i + 3 ≤ buf.length := by
  obtain ⟨h1, h2, _⟩ := find_start_code_some buf off i h
  exact ⟨h1, startCodeAt_bounds buf i h2⟩

theorem carveAux_nil (d : DecodeFn) (f : Nat) : carveAux d f [] = .ok ([], []) := by
  cases f with
  | zero => rfl
  | succ g => simp [carveAux, find_start_code]

/-- Fuel above the buffer length never changes the carving loop's
result: each extracting iteration drains at least 3 bytes, so
`buf.length` iterations always suffice. -/
theorem carveAux_fuel_irrelevant (d : DecodeFn) :
    ∀ fuel buf f, buf.length ≤ fuel → buf.length ≤ f →
      carveAux d f buf = carveAux d buf.length buf := by
  intro fuel
  induction fuel with
  | zero =>
    intro buf f hbn _
    have : buf = [] := List.length_eq_zero.mp (Nat.le_zero.mp hbn)
    subst this
    rw [carveAux_nil, carveAux_nil]
  | succ n ih =>
    intro buf f hbn hbf
    cases hlen : buf.length with
    | zero =>
      have : buf = [] := List.length_eq_zero.mp hlen
      subst this
      rw [carveAux_nil, carveAux_nil]
    | succ m =>
      obtain ⟨g, rfl⟩ : ∃ g, f = g + 1 := ⟨f - 1, by omega⟩
      cases hf1 : find_start_code buf 0 with
      | none => simp only [carveAux, hf1]
      | some s =>
        cases hf2 : find_start_code buf (s + 3) with
        | none => simp only [carveAux, hf1, hf2]
        | some e =>
          simp only [carveAux, hf1, hf2]
          have hb2 := find_some_bounds buf (s + 3) e hf2
          have hdrop : (buf.drop e).length = buf.length - e := List.length_drop e buf
          have h1 : carveAux d g (buf.drop e) = carveAux d (buf.drop e).length (buf.drop e) :=
            ih (buf.drop e) g (by omega) (by omega)
          have h2 : carveAux d m (buf.drop e) = carveAux d (buf.drop e).length (buf.drop e) :=
            ih (buf.drop e) m (by omega) (by omega)
          rw [h1, h2]

/-- One unfolding of `carve` on a buffer that yields a NAL. -/
theorem carve_step (d : DecodeFn) (buf : List Byte) (s e : Nat)
    (h1 : find_start_code buf 0 = some s)
    (h2 : find_start_code buf (s + 3) = some e) :
    carve d buf =
      match d ((buf.take e).drop s) with
      | .error err => .error err
      | .ok _ =>
        match carve d (buf.drop e) with
        | .error err => .error err
        | .ok (rest, final) => .ok ((buf.take e).drop s :: rest, final) := by
  have hb2 := find_some_bounds buf (s + 3) e h2
  have hlen : 3 ≤ buf.length := by omega
  unfold carve
  obtain ⟨m, hm⟩ : ∃ m, buf.length = m + 1 := ⟨buf.length - 1, by omega⟩
  rw [hm]
  simp only [carveAux, h1, h2]
  have hdrop : (buf.drop e).length = buf.length - e := List.length_drop e buf
  have heq : carveAux d m (buf.drop e) = carveAux d (buf.drop e).length (buf.drop e) :=
    carveAux_fuel_irrelevant d m (buf.drop e) m (by omega) (by omega)
  rw [heq]

/-- One unfolding of `carve` on a buffer where no complete NAL is
delimited yet. -/
theorem carve_stop (d : DecodeFn) (buf : List Byte)
    (h : find_start_code buf 0 = none ∨
      ∃ s, find_start_code buf 0 = some s ∧ find_start_code buf (s + 3) = none) :
    carve d buf = .ok ([], buf) := by
  unfold carve
  cases hlen : buf.length with
  | zero =>
    have : buf = [] := List.length_eq_zero.mp hlen
    subst this; rfl
  | succ m =>
    simp only [carveAux]
    rcases h with h | ⟨s, hs, hn⟩
    · rw [h]
    · simp only [hs, hn]

/-- Decoder oracle that always succeeds without producing a picture. -/
def dConstOkNone : DecodeFn := fun _ => .ok none

/-- Decoder oracle that fails on every packet. -/
def dConstErr : DecodeFn := fun _ => .error ()

theorem getD_drop (l : List Byte) (n k : Nat) :
    (l.drop n).getD k 0 = l.getD (n + k) 0 := by
  simp [List.getD_eq_getElem?_getD, List.getElem?_drop]

/-- Dropping to a start code puts a start code at index 0. -/
theorem startCodeAt_drop (buf : List Byte) (e : Nat) (h : startCodeAt buf e) :
    startCodeAt (buf.drop e) 0 := by
  have hlen : (buf.drop e).length = buf.length - e := List.length_drop e buf
  rcases h with ⟨hb, h0, h1, h2⟩ | ⟨hb, h0, h1, h2, h3⟩
  · exact Or.inl ⟨by omega, by rw [getD_drop]; simpa using h0,
      by rw [getD_drop]; simpa using h1, by rw [getD_drop]; simpa using h2⟩
  · exact Or.inr ⟨by omega, by rw [getD_drop]; simpa using h0,
      by rw [getD_drop]; simpa using h1, by rw [getD_drop]; simpa using h2,
      by rw [getD_drop]; simpa using h3⟩

/-- Claim C9 (confirmed): `find_start_code` returns the leftmost index at
or after the offset that carries a `00 00 01` or `00 00 00 01` start
code lying entirely inside the buffer; it returns `none` exactly when no
such index exists, in particular whenever fewer than 3 bytes remain
after the offset.  All reads are within bounds: a returned start code
satisfies `i + 3 ≤ buf.length` by `startCodeAt`. -/
theorem find_start_code_correct (buf : List Byte) (off : Nat) :
    (∀ i, find_start_code buf off = some i →
        off ≤ i ∧ startCodeAt buf i ∧ ∀ j, off ≤ j → j < i → ¬ startCodeAt buf j) ∧
    (find_start_code buf off = none → ∀ j, off ≤ j → ¬ startCodeAt buf j) ∧
    (buf.length < off + 3 → find_start_code buf off = none) := by
  refine ⟨fun i h => find_start_code_some buf off i h, find_start_code_none buf off, ?_⟩
  intro h
  unfold find_start_code
  rw [if_pos h]

/-- Witness for C9 at the concrete buffer `00 00 00 01`, offset 0. -/
theorem find_start_code_correct_witness : startCodeAt [0, 0, 0, 1] 0 :=
  (((find_start_code_correct [0, 0, 0, 1] 0).1) 0 rfl).2.1

/-- Claim C3 (counterexample): the payload `00 00 01` begins with the
recognized 3-byte start code, yet the normalizer does not pass it
through unchanged — the source's test requires `nal_buf.len() >= 4`, so
another start code is prepended.  And the payload `00 00 00 01` begins
with the recognized 4-byte start code, yet instead of passing it
through the source panics on the out-of-bounds logging read
`nal_buf[4]` (net.rs 157), modelled by `none`. -/
theorem normalize_three_byte_counterexample :
    (specBeginsWithStartCode [0, 0, 1] ∧
      normalize_packet [0, 0, 1] = some [0, 0, 0, 1, 0, 0, 1]) ∧
    (specBeginsWithStartCode [0, 0, 0, 1] ∧
      normalize_packet [0, 0, 0, 1] = none) := by
  decide

/-- Claim C3 (amended): a payload is passed through unchanged exactly when
it is at least 4 bytes long, begins with a recognized start code, and —
when that code is the 4-byte variant (third byte not `0x01`) — has at
least one byte after the code: on the exact payload `00 00 00 01` the
program panics on the out-of-bounds logging read `nal_buf[4]`
(net.rs 157).  Every payload without a recognized 4-byte-test start
code — including the bare 3-byte start code `00 00 01` — gets the
canonical 4-byte start code prepended with the rest unchanged,
panicking on the empty payload (`nal_buf[0]`, net.rs 162). -/
theorem normalize_packet_correct (p : List Byte) :
    (has_start_code p = true → p.getD 2 0 = 1 → normalize_packet p = some p) ∧
    (has_start_code p = true → p.getD 2 0 ≠ 1 → 5 ≤ p.length → normalize_packet p = some p) ∧
    (has_start_code p = true → p.getD 2 0 ≠ 1 → p.length < 5 → normalize_packet p = none) ∧
    (has_start_code p = false → p ≠ [] → normalize_packet p = some ([0, 0, 0, 1] ++ p)) ∧
    (has_start_code p = false → p = [] → normalize_packet p = none) ∧
    (has_start_code p = true ↔ 4 ≤ p.length ∧ specBeginsWithStartCode p) := by
  refine ⟨?_, ?_, ?_, ?_, ?_, ?_⟩
  · intro h h2
    unfold normalize_packet
    rw [if_pos h, if_pos h2]
  · intro h h2 h5
    unfold normalize_packet
    rw [if_pos h, if_neg h2, if_pos h5]
  · intro h h2 hlt
    unfold normalize_packet
    rw [if_pos h, if_neg h2, if_neg (by omega)]
  · intro h hne
    unfold normalize_packet
    rw [if_neg (by simp [h]), if_neg (by simpa [List.length_eq_zero] using hne)]
  · intro _ he
    subst he
    rfl
  cases p with
  | nil => simp [has_start_code, specBeginsWithStartCode]
  | cons a p1 =>
    cases p1 with
    | nil => simp [has_start_code, specBeginsWithStartCode]
    | cons b p2 =>
      cases p2 with
      | nil => simp [has_start_code, specBeginsWithStartCode]
      | cons c p3 =>
        cases p3 with
        | nil => simp [has_start_code, specBeginsWithStartCode]
        | cons e p4 =>
          simp only [has_start_code, specBeginsWithStartCode, List.getD_cons_zero,
            List.getD_cons_succ, List.take, List.length_cons, Bool.and_eq_true,
            Bool.or_eq_true, beq_iff_eq, decide_eq_true_eq, List.cons.injEq,
            and_true, true_and]
          constructor
          · rintro ⟨⟨⟨hl, h0⟩, h1⟩, h2 | ⟨h2, h3⟩⟩
            · exact ⟨by omega, Or.inl ⟨h0, h1, h2⟩⟩
            · exact ⟨by omega, Or.inr ⟨h0, h1, h2, h3⟩⟩
          · rintro ⟨hl, ⟨h0, h1, h2⟩ | ⟨h0, h1, h2, h3⟩⟩
            · exact ⟨⟨⟨by omega, h0⟩, h1⟩, Or.inl h2⟩
            · exact ⟨⟨⟨by omega, h0⟩, h1⟩, Or.inr ⟨h2, h3⟩⟩

/-- Witness for the amended C3: a 3-byte-start-code payload and a
5-byte payload with the 4-byte start code pass through; a bare payload
gets the start code prepended; the exact 4-byte start code alone
panics. -/
theorem normalize_packet_correct_witness :
    normalize_packet [0, 0, 1, 0x65] = some [0, 0, 1, 0x65] ∧
    normalize_packet [0, 0, 0, 1, 0x67] = some [0, 0, 0, 1, 0x67] ∧
    normalize_packet [0x67, 0x42] = some [0, 0, 0, 1, 0x67, 0x42] ∧
    normalize_packet [0, 0, 0, 1] = none :=
  ⟨(normalize_packet_correct [0, 0, 1, 0x65]).1 (by decide) (by decide),
   (normalize_packet_correct [0, 0, 0, 1, 0x67]).2.1 (by decide) (by decide) (by decide),
   (normalize_packet_correct [0x67, 0x42]).2.2.2.1 (by decide) (by decide),
   (normalize_packet_correct [0, 0, 0, 1]).2.2.1 (by decide) (by decide) (by decide)⟩

/-- Claim C5 (confirmed): a length-prefixed unit whose length field is 0
or above 16 MiB is skipped without reading any payload byte: no decode,
no control dispatch, rotation untouched, stream position unchanged, and
the call returns success so the reader resumes at the next length
field. -/
theorem corrupt_length_skipped (d : DecodeFn) (len : Nat) (stream : List Byte)
    (rot : Nat) (h : len = 0 ∨ 16 * 1024 * 1024 < len) :
    read_one_payload d len stream rot = some (.ok (stream, rot, [])) := by
  unfold read_one_payload
  rw [if_pos (by simpa [MAX_NAL_SIZE] using h)]

/-- Witness for C5 at length 0. -/
theorem corrupt_length_skipped_witness :
    read_one_payload dConstOkNone 0 [9, 9] 5 = some (.ok ([9, 9], 5, [])) :=
  corrupt_length_skipped dConstOkNone 0 [9, 9] 5 (Or.inl rfl)

/-- Claim C6 (confirmed): a control payload (magic stripped) with tag
`0x01` followed by at least 2 bytes replaces the rotation state with the
big-endian 16-bit angle `data[1] * 256 + data[2]`; an empty payload, a
different tag, or a truncated tag-`0x01` payload leaves the rotation
unchanged (only a warning is logged) and never fails. -/
theorem rotation_control_correct (data : List Byte) (rot : Nat) :
    (data.getD 0 0 = 0x01 → 3 ≤ data.length →
      handle_control_message data rot = data.getD 1 0 * 256 + data.getD 2 0) ∧
    ((data = [] ∨ data.getD 0 0 ≠ 0x01 ∨ data.length < 3) →
      handle_control_message data rot = rot) := by
  constructor
  · intro h1 h2
    cases data with
    | nil => simp at h2
    | cons a t =>
      simp only [List.getD_cons_zero] at h1
      simp only [handle_control_message]
      rw [if_pos h1, if_pos h2]
  · intro h
    cases data with
    | nil => rfl
    | cons a t =>
      rcases h with h | h | h
      · exact absurd h (by simp)
      · simp only [List.getD_cons_zero] at h
        simp only [handle_control_message]
        rw [if_neg h]
      · simp only [handle_control_message]
        by_cases ha : a = 0x01
        · rw [if_pos ha, if_neg (by omega)]
        · rw [if_neg ha]

/-- Witness for C6: `0x01 0x00 0x5A` sets rotation to 90; the truncated
`0x01 0x00` leaves it at 7. -/
theorem rotation_control_correct_witness :
    handle_control_message [0x01, 0x00, 0x5A] 7 = 90 ∧
    handle_control_message [0x01, 0x00] 7 = 7 :=
  ⟨((rotation_control_correct [0x01, 0x00, 0x5A] 7).1 (by decide) (by decide)).trans
      (by decide),
   (rotation_control_correct [0x01, 0x00] 7).2 (Or.inr (Or.inr (by decide)))⟩

/-- Claim C1 (counterexample): with a decoder that fails the NAL
`00 00 00 01 AA`, the Annex-B extraction pass returns the decode error —
the source's `decoder.decode(&nal_packet)?` (net.rs 253) propagates it
out of the reader, tearing down the session, contrary to the claim that
both reading modes absorb decode errors. -/
theorem annexb_decode_error_propagates :
    dConstErr [0, 0, 0, 1, 0xAA] = .error () ∧
    extract_and_decode_nals dConstErr [0, 0, 0, 1, 0xAA, 0, 0, 0, 1] = .error () :=
  ⟨rfl, rfl⟩

/-- Claim C1 (amended): the two reading modes treat decode errors
differently.  In length-prefixed mode `decode_nal_buffer` absorbs every
decode error: whenever it returns at all — its debug-logging index
reads panic on the reachable payload `00 00 00 01` (net.rs 157) and on
an empty payload (net.rs 162), before any decode — the returned result
is success regardless of the decoder's outcome.  In Annex-B mode a
decode error on an extracted NAL propagates out of
`extract_and_decode_nals` and tears down the connection. -/
theorem decode_error_paths (d : DecodeFn) (nal_buf buf : List Byte) (s e : Nat)
    (h1 : find_start_code buf 0 = some s)
    (h2 : find_start_code buf (s + 3) = some e)
    (h3 : d ((buf.take e).drop s) = .error ()) :
    (∀ r pkts, decode_nal_buffer d nal_buf = some (r, pkts) → r = .ok ()) ∧
    extract_and_decode_nals d buf = .error () := by
  constructor
  · intro r pkts hres
    unfold decode_nal_buffer at hres
    cases hn : normalize_packet nal_buf with
    | none =>
      simp only [hn] at hres
      exact absurd hres (by simp)
    | some packet =>
      simp only [hn] at hres
      cases hd : d packet with
      | ok v =>
        simp only [hd, Option.some.injEq, Prod.mk.injEq] at hres
        exact hres.1.symm
      | error er =>
        simp only [hd, Option.some.injEq, Prod.mk.injEq] at hres
        exact hres.1.symm
  · unfold extract_and_decode_nals
    rw [carve_step d buf s e h1 h2, h3]

/-- Witness for the amended C1 at a concrete erroring decoder: on the
payload `AA` the handler returns (packet `00 00 00 01 AA`) with
success, while the Annex-B pass propagates the error. -/
theorem decode_error_paths_witness :
    (Except.ok () : Except Unit Unit) = .ok () ∧
    extract_and_decode_nals dConstErr [0, 0, 1, 0xBB, 0, 0, 1] = .error () := by
  have h := decode_error_paths dConstErr [0xAA] [0, 0, 1, 0xBB, 0, 0, 1] 0 4 rfl rfl rfl
  exact ⟨h.1 (Except.ok ()) [[0, 0, 0, 1, 0xAA]] rfl, h.2⟩

/-- Claim C2 (counterexample): two back-to-back start-code-delimited NALs
in one read produce exactly one decode invocation, and the buffer is
left holding the second NAL (start code included), not empty — the
carving loop only emits a NAL once it sees the *next* start code. -/
theorem two_nals_one_decode :
    extract_and_decode_nals dConstOkNone [0, 0, 0, 1, 0xAA, 0, 0, 0, 1, 0xBB]
      = .ok ([[0, 0, 0, 1, 0xAA]], [0, 0, 0, 1, 0xBB]) ∧
    ([0, 0, 0, 1, 0xBB] : List Byte) ≠ [] := by
  exact ⟨rfl, by decide⟩

/-- Claim C2 (amended): when the buffer holds exactly two start codes
(one NAL fully delimited) and decoding it succeeds, the extraction pass
invokes the decoder exactly once — on the span from the first to the
second start code — and leaves the suffix from the second start code
onward (the second NAL's bytes) in the buffer awaiting a further read;
that suffix is nonempty and itself starts with a start code. -/
theorem one_delimited_nal_extracted (d : DecodeFn) (buf : List Byte) (s e : Nat)
    (r : Option Unit)
    (h1 : find_start_code buf 0 = some s)
    (h2 : find_start_code buf (s + 3) = some e)
    (h3 : find_start_code (buf.drop e) 3 = none)
    (hd : d ((buf.take e).drop s) = .ok r)
    (hlen : buf.length ≤ 4 * 1024 * 1024) :
    extract_and_decode_nals d buf = .ok ([(buf.take e).drop s], buf.drop e) ∧
    buf.drop e ≠ [] ∧ startCodeAt (buf.drop e) 0 := by
  have hsc : startCodeAt buf e := (find_start_code_some buf (s + 3) e h2).2.1
  have hscd : startCodeAt (buf.drop e) 0 := startCodeAt_drop buf e hsc
  have hb2 := find_some_bounds buf (s + 3) e h2
  have hdl : (buf.drop e).length = buf.length - e := List.length_drop e buf
  have hrec : carve d (buf.drop e) = .ok ([], buf.drop e) :=
    carve_stop d (buf.drop e) (Or.inr ⟨0, find_start_code_zero (buf.drop e) hscd, h3⟩)
  have hcarve : carve d buf = .ok ([(buf.take e).drop s], buf.drop e) := by
    rw [carve_step d buf s e h1 h2, hd, hrec]
  refine ⟨?_, ?_, hscd⟩
  · unfold extract_and_decode_nals
    simp only [hcarve]
    rw [if_neg (by omega)]
  · intro hnil
    rw [hnil] at hdl
    simp at hdl
    omega

/-- Witness for the amended C2: one 4-byte-delimited NAL followed by a
3-byte start code and a partial NAL. -/
theorem one_delimited_nal_extracted_witness :
    extract_and_decode_nals dConstOkNone [0, 0, 0, 1, 0xCC, 0, 0, 1, 0xDD]
      = .ok ([[0, 0, 0, 1, 0xCC]], [0, 0, 1, 0xDD]) ∧
    ([0, 0, 1, 0xDD] : List Byte) ≠ [] ∧ startCodeAt [0, 0, 1, 0xDD] 0 := by
  have h := one_delimited_nal_extracted dConstOkNone
    [0, 0, 0, 1, 0xCC, 0, 0, 1, 0xDD] 0 5 none rfl rfl rfl rfl (by decide)
  exact h

/-- Claim C4 (confirmed): whenever the extraction pass returns (i.e. at
every iteration boundary of the Annex-B read loop), the leftover buffer
is at most 4 MiB; and whenever the carving loop's leftover exceeded
4 MiB, exactly the trailing 1 MiB was kept (the oldest bytes were
discarded) and the pass still returned success. -/
theorem annexb_buffer_bounded (d : DecodeFn) (buf : List Byte)
    (nals : List (List Byte)) (out : List Byte)
    (h : extract_and_decode_nals d buf = .ok (nals, out)) :
    out.length ≤ 4 * 1024 * 1024 ∧
    ∀ mid, carve d buf = .ok (nals, mid) → 4 * 1024 * 1024 < mid.length →
      out.length = 1024 * 1024 ∧ out = mid.drop (mid.length - 1024 * 1024) := by
  have hval : ∀ nals0 mid0, carve d buf = .ok (nals0, mid0) →
      extract_and_decode_nals d buf =
        if 4 * 1024 * 1024 < mid0.length then
          .ok (nals0, mid0.drop (mid0.length - 1024 * 1024))
        else .ok (nals0, mid0) := by
    intro nals0 mid0 hc
    unfold extract_and_decode_nals
    simp only [hc]
  cases hc : carve d buf with
  | error err =>
    unfold extract_and_decode_nals at h
    rw [hc] at h
    have h2 : Except.error err = Except.ok (nals, out) := h
    exact absurd h2 (by simp)
  | ok p =>
    obtain ⟨nals0, mid0⟩ := p
    have hh := (hval nals0 mid0 hc).symm.trans h
    by_cases hbig : 4 * 1024 * 1024 < mid0.length
    · rw [if_pos hbig] at hh
      simp only [Except.ok.injEq, Prod.mk.injEq] at hh
      obtain ⟨hn, hout⟩ := hh
      subst hn
      have hlen : out.length = 1024 * 1024 := by
        rw [← hout, List.length_drop]
        omega
      refine ⟨by omega, fun mid hmid hbig2 => ?_⟩
      simp only [hc, Except.ok.injEq, Prod.mk.injEq, true_and] at hmid
      subst hmid
      exact ⟨hlen, hout.symm⟩
    · rw [if_neg hbig] at hh
      simp only [Except.ok.injEq, Prod.mk.injEq] at hh
      obtain ⟨hn, hout⟩ := hh
      subst hn
      subst hout
      refine ⟨by omega, fun mid hmid hbig2 => ?_⟩
      simp only [hc, Except.ok.injEq, Prod.mk.injEq, true_and] at hmid
      subst hmid
      exact absurd hbig2 hbig

/-- Witness for C4 on a concrete (small) buffer. -/
theorem annexb_buffer_bounded_witness :
    ([0, 0, 1, 0xEE] : List Byte).length ≤ 4 * 1024 * 1024 :=
  (annexb_buffer_bounded dConstOkNone [0, 0, 1, 0xEE] [] [0, 0, 1, 0xEE] rfl).1

/-- Claim C10 (confirmed): the carving loop terminates on every finite
buffer.  Each iteration that extracts a NAL finds the second start code
at least 3 bytes past the first and drains that many bytes (at least 3)
from the buffer's front, strictly shrinking it; consequently
`buf.length` iterations always suffice — running the loop with any fuel
at least `buf.length` gives the loop's result `carve d buf`. -/
theorem carve_loop_terminates (d : DecodeFn) (buf : List Byte) :
    (∀ s e, find_start_code buf 0 = some s → find_start_code buf (s + 3) = some e →
        s + 3 ≤ e ∧ 3 ≤ e ∧ (buf.drop e).length + 3 ≤ buf.length) ∧
    (∀ fuel, buf.length ≤ fuel → carveAux d fuel buf = carve d buf) := by
  constructor
  · intro s e h1 h2
    have hb2 := find_some_bounds buf (s + 3) e h2
    have hdl : (buf.drop e).length = buf.length - e := List.length_drop e buf
    omega
  · intro fuel hf
    exact carveAux_fuel_irrelevant d fuel buf fuel hf hf

/-- Witness for C10 on a concrete buffer with one delimited NAL. -/
theorem carve_loop_terminates_witness :
    (0 : Nat) + 3 ≤ 4 ∧ 3 ≤ 4 ∧
      (([0, 0, 1, 9, 0, 0, 1] : List Byte).drop 4).length + 3 ≤
        ([0, 0, 1, 9, 0, 0, 1] : List Byte).length :=
  (carve_loop_terminates dConstOkNone [0, 0, 1, 9, 0, 0, 1]).1 0 4 rfl rfl

/-! ### Color Converter (`yuv420_to_rgba`, decoder.rs 78-121)

The per-pixel BT.601 f32 arithmetic (decoder.rs 103-110) is abstracted
as the oracle `RgbFn`; every theorem below holds for every such
function, so nothing depends on the float values. -/

/-- One pixel's clamped (r, g, b) bytes, abstracting the f32 BT.601
formula applied to the fetched Y, U, V samples. -/
abbrev RgbFn := Byte → Byte → Byte → Byte × Byte × Byte

/-- Inputs of `yuv420_to_rgba`: three plane buffers, their row strides,
and the pixel dimensions. -/
structure YuvFrame where
  y_data : List Byte
  u_data : List Byte
  v_data : List Byte
  y_stride : Nat
  u_stride : Nat
  v_stride : Nat
  w : Nat
  h : Nat

/-- The body of the inner loop of `yuv420_to_rgba` (decoder.rs 91-117)
for one `(row, col)`: compute the three plane indices, skip the pixel
when any is out of range (decoder.rs 99-101), otherwise write the three
color bytes at `(row * w + col) * 4`; the alpha byte is never written. -/
def yuvPixel (rgb : RgbFn) (f : YuvFrame) (acc : List Byte) (row col : Nat) : List Byte :=
  let y_idx := row * f.y_stride + col
  let uv_row := row / 2
  let uv_col := col / 2
  let u_idx := uv_row * f.u_stride + uv_col
  let v_idx := uv_row * f.v_stride + uv_col
  if f.y_data.length ≤ y_idx ∨ f.u_data.length ≤ u_idx ∨ f.v_data.length ≤ v_idx then
    acc
  else
    let c := rgb (f.y_data.getD y_idx 0) (f.u_data.getD u_idx 0) (f.v_data.getD v_idx 0)
    let idx := (row * f.w + col) * 4
    ((acc.set idx c.1).set (idx + 1) c.2.1).set (idx + 2) c.2.2

/-- Function `yuv420_to_rgba` (decoder.rs 78-121): the output starts as
`vec![255u8; w * h * 4]` and the two nested loops update it pixel by
pixel. -/
def yuv420_to_rgba (rgb : RgbFn) (f : YuvFrame) : List Byte :=
  (List.range f.h).foldl
    (fun acc row => (List.range f.w).foldl (fun a col => yuvPixel rgb f a row col) acc)
    (List.replicate (f.w * f.h * 4) 255)

/-- Fold preservation of an invariant, with membership available. -/
theorem foldl_preserve {α β : Type} (P : α → Prop) (g : α → β → α) :
    ∀ (l : List β), (∀ a x, x ∈ l → P a → P (g a x)) → ∀ a, P a → P (l.foldl g a) := by
  intro l
  induction l with
  | nil => intro _ a ha; exact ha
  | cons x t ih =>
    intro hg a ha
    exact ih (fun a' y hy => hg a' y (List.mem_cons_of_mem x hy)) (g a x)
      (hg a x (List.mem_cons_self x t) ha)

theorem getD_set_ne (l : List Byte) (i j : Nat) (v : Byte) (h : i ≠ j) :
    (l.set i v).getD j 0 = l.getD j 0 := by
  simp [List.getD_eq_getElem?_getD, List.getElem?_set_ne h]

/-- Distinct pixel coordinates give distinct flat pixel numbers. -/
theorem pix_inj {w r1 c1 r2 c2 : Nat} (hc1 : c1 < w) (hc2 : c2 < w)
    (h : r1 * w + c1 = r2 * w + c2) : r1 = r2 ∧ c1 = c2 := by
  have hw : 0 < w := by omega
  have hd1 : (r1 * w + c1) / w = r1 := by
    rw [Nat.mul_comm r1 w, Nat.mul_add_div hw, Nat.div_eq_of_lt hc1, Nat.add_zero]
  have hd2 : (r2 * w + c2) / w = r2 := by
    rw [Nat.mul_comm r2 w, Nat.mul_add_div hw, Nat.div_eq_of_lt hc2, Nat.add_zero]
  have hm1 : (r1 * w + c1) % w = c1 := by
    rw [Nat.mul_comm r1 w, Nat.mul_add_mod, Nat.mod_eq_of_lt hc1]
  have hm2 : (r2 * w + c2) % w = c2 := by
    rw [Nat.mul_comm r2 w, Nat.mul_add_mod, Nat.mod_eq_of_lt hc2]
  constructor
  · rw [← hd1, ← hd2, h]
  · rw [← hm1, ← hm2, h]

theorem pix_lt {w hh r c : Nat} (hr : r < hh) (hc : c < w) : r * w + c < hh * w := by
  calc r * w + c < r * w + w := by omega
    _ = (r + 1) * w := by ring
    _ ≤ hh * w := Nat.mul_le_mul_right w hr

/-- Lemma: `yuvPixel` never changes the buffer length. -/
theorem yuvPixel_length (rgb : RgbFn) (f : YuvFrame) (acc : List Byte) (row col : Nat) :
    (yuvPixel rgb f acc row col).length = acc.length := by
  simp only [yuvPixel]
  split
  · rfl
  · simp [List.length_set]

/-- Lemma: `yuvPixel` leaves every index `≡ 3 (mod 4)` untouched: the three
writes land at offsets 0, 1, 2 of a 4-byte pixel cell. -/
theorem yuvPixel_alpha (rgb : RgbFn) (f : YuvFrame) (acc : List Byte) (row col i : Nat)
    (hi : i % 4 = 3) : (yuvPixel rgb f acc row col).getD i 0 = acc.getD i 0 := by
  simp only [yuvPixel]
  split
  · rfl
  · rw [getD_set_ne _ _ _ _ (by omega), getD_set_ne _ _ _ _ (by omega),
      getD_set_ne _ _ _ _ (by omega)]

/-- Claim C8 (confirmed): for every frame geometry and every per-pixel
color function, the converter's output has length exactly `w * h * 4`
and every 4th byte (each pixel's alpha channel) is 255 — the fill value
of the pre-initialized buffer, which no write ever touches. -/
theorem yuv420_output_shape (rgb : RgbFn) (f : YuvFrame) :
    (yuv420_to_rgba rgb f).length = f.w * f.h * 4 ∧
    ∀ i, i < f.w * f.h * 4 → i % 4 = 3 → (yuv420_to_rgba rgb f).getD i 0 = 255 := by
  have key : (yuv420_to_rgba rgb f).length = f.w * f.h * 4 ∧
      ∀ i, i < f.w * f.h * 4 → i % 4 = 3 → (yuv420_to_rgba rgb f).getD i 0 = 255 := by
    unfold yuv420_to_rgba
    apply foldl_preserve
      (P := fun l : List Byte => l.length = f.w * f.h * 4 ∧
        ∀ i, i < f.w * f.h * 4 → i % 4 = 3 → l.getD i 0 = 255)
    · intro a row _ ⟨ha1, ha2⟩
      apply foldl_preserve
        (P := fun l : List Byte => l.length = f.w * f.h * 4 ∧
          ∀ i, i < f.w * f.h * 4 → i % 4 = 3 → l.getD i 0 = 255)
      · intro a2 col _ ⟨hb1, hb2⟩
        refine ⟨(yuvPixel_length rgb f a2 row col).trans hb1, fun i hi1 hi2 => ?_⟩
        rw [yuvPixel_alpha rgb f a2 row col i hi2]
        exact hb2 i hi1 hi2
      · exact ⟨ha1, ha2⟩
    · refine ⟨List.length_replicate _ _, fun i hi1 _ => ?_⟩
      simp [List.getD_eq_getElem?_getD, List.getElem?_replicate_of_lt hi1]
  exact key

/-- Witness for C8 at a concrete 1×1 frame. -/
theorem yuv420_output_shape_witness :
    (yuv420_to_rgba (fun _ _ _ => (0, 0, 0)) ⟨[16], [128], [128], 1, 1, 1, 1, 1⟩).length
        = 1 * 1 * 4 ∧
    (yuv420_to_rgba (fun _ _ _ => (0, 0, 0)) ⟨[16], [128], [128], 1, 1, 1, 1, 1⟩).getD 3 0
        = 255 :=
  ⟨(yuv420_output_shape (fun _ _ _ => (0, 0, 0)) ⟨[16], [128], [128], 1, 1, 1, 1, 1⟩).1,
   (yuv420_output_shape (fun _ _ _ => (0, 0, 0)) ⟨[16], [128], [128], 1, 1, 1, 1, 1⟩).2
      3 (by decide) (by decide)⟩

/-- Claim C7 (confirmed): the converter is total for every combination of
plane buffers, strides and dimensions (the embedding is a total
function and every plane read is guarded by the bounds test of
decoder.rs 99-101), and a pixel whose Y, U or V index falls outside its
plane buffer is skipped: all 4 of its output bytes keep the buffer's
fill value 255. -/
theorem yuv420_oob_pixel_skipped (rgb : RgbFn) (f : YuvFrame) (row col : Nat)
    (hr : row < f.h) (hc : col < f.w)
    (hoob : f.y_data.length ≤ row * f.y_stride + col
      ∨ f.u_data.length ≤ row / 2 * f.u_stride + col / 2
      ∨ f.v_data.length ≤ row / 2 * f.v_stride + col / 2) :
    ∀ k, k < 4 → (yuv420_to_rgba rgb f).getD ((row * f.w + col) * 4 + k) 0 = 255 := by
  have key : ∀ k, k < 4 → (yuv420_to_rgba rgb f).getD ((row * f.w + col) * 4 + k) 0 = 255 := by
    unfold yuv420_to_rgba
    apply foldl_preserve
      (P := fun l : List Byte => ∀ k, k < 4 → l.getD ((row * f.w + col) * 4 + k) 0 = 255)
    · intro a row2 hrow2 ha
      rw [List.mem_range] at hrow2
      apply foldl_preserve
        (P := fun l : List Byte => ∀ k, k < 4 → l.getD ((row * f.w + col) * 4 + k) 0 = 255)
      · intro a2 col2 hcol2 hb k hk
        rw [List.mem_range] at hcol2
        by_cases hsame : row2 = row ∧ col2 = col
        · obtain ⟨rfl, rfl⟩ := hsame
          simp only [yuvPixel]
          rw [if_pos hoob]
          exact hb k hk
        · have hpix : row2 * f.w + col2 ≠ row * f.w + col := by
            intro hEq
            exact hsame (pix_inj hcol2 hc hEq)
          simp only [yuvPixel]
          split
          · exact hb k hk
          · rw [getD_set_ne _ _ _ _ (by omega), getD_set_ne _ _ _ _ (by omega),
              getD_set_ne _ _ _ _ (by omega)]
            exact hb k hk
      · exact ha
    · intro k hk
      have hlt : (row * f.w + col) * 4 + k < f.w * f.h * 4 := by
        have := pix_lt hr hc
        have hm : f.h * f.w = f.w * f.h := Nat.mul_comm _ _
        omega
      simp [List.getD_eq_getElem?_getD, List.getElem?_replicate_of_lt hlt]
  exact key

/-- Witness for C7: a 2×2 frame whose Y plane is too short for pixel
(1, 1); that pixel's 4 output bytes all stay 255. -/
theorem yuv420_oob_pixel_skipped_witness :
    (yuv420_to_rgba (fun _ _ _ => (0, 0, 0)) ⟨[10], [5], [5], 2, 1, 1, 2, 2⟩).getD
      ((1 * 2 + 1) * 4 + 3) 0 = 255 :=
  yuv420_oob_pixel_skipped (fun _ _ _ => (0, 0, 0)) ⟨[10], [5], [5], 2, 1, 1, 2, 2⟩ 1 1
    (by decide) (by decide) (Or.inl (by decide)) 3 (by decide)

end H264
